import Mathlib

/-!
Verification of the reduce operation (`motion/operations/reduce.py`).

The development shallowly embeds the reduce operation: records are ordered
association lists from field names to values, the external model invocation
service / template renderer / schema validator (out of scope per the spec,
and not part of the sources) are a single abstract oracle, durations and
costs are rationals, and the thread pools' completion order (`as_completed`)
is an explicit reordering parameter.  Machine floats of the lane estimator
are embedded as real numbers.
-/

namespace Motion

/-! ## Generic list helpers

`chunks k xs` is the sequence of slices `xs[i : i + k]` for `i = 0, k, 2k, ...`
as produced by Python loops of the form `for i in range(0, len(xs), k)`.
It is defined through a fuel-indexed worker so that it is structurally
recursive (and hence computable by the kernel); `chunks_cons` recovers the
natural unfolding.
-/

def chunksGo (k : ℕ) : ℕ → List α → List (List α)
  | _, [] => []
  | 0, _ :: _ => []
  | fuel + 1, x :: xs => (x :: xs).take k :: chunksGo k fuel ((x :: xs).drop k)

def chunks (k : ℕ) (xs : List α) : List (List α) :=
  if k = 0 then [] else chunksGo k xs.length xs

theorem chunksGo_fuel {α : Type u} (k : ℕ) (hk : 0 < k) :
    ∀ (n : ℕ) (xs : List α) (fuel1 fuel2 : ℕ), xs.length ≤ n →
      xs.length ≤ fuel1 → xs.length ≤ fuel2 →
      chunksGo k fuel1 xs = chunksGo k fuel2 xs := by
  intro n
  induction n with
  | zero =>
    intro xs fuel1 fuel2 hn _ _
    have : xs = [] := List.length_eq_zero.mp (Nat.le_zero.mp hn)
    subst this
    cases fuel1 <;> cases fuel2 <;> rfl
  | succ n ih =>
    intro xs fuel1 fuel2 hn h1 h2
    match xs with
    | [] => cases fuel1 <;> cases fuel2 <;> rfl
    | x :: xs =>
      match fuel1, fuel2 with
      | f1 + 1, f2 + 1 =>
        simp only [chunksGo]
        congr 1
        have hdrop : ((x :: xs).drop k).length ≤ xs.length := by
          simp only [List.length_drop, List.length_cons]
          omega
        simp only [List.length_cons] at hn h1 h2
        exact ih _ _ _ (by omega) (by omega) (by omega)

theorem chunks_nil (k : ℕ) : chunks k ([] : List α) = [] := by
  simp [chunks, chunksGo]

theorem chunks_cons {α : Type u} (k : ℕ) (hk : 0 < k) (x : α) (xs : List α) :
    chunks k (x :: xs) = (x :: xs).take k :: chunks k ((x :: xs).drop k) := by
  have hk0 : k ≠ 0 := Nat.pos_iff_ne_zero.mp hk
  simp only [chunks, hk0, if_false]
  rw [show (x :: xs).length = xs.length + 1 from rfl]
  simp only [chunksGo]
  congr 1
  exact chunksGo_fuel k hk ((x :: xs).drop k).length ((x :: xs).drop k) xs.length
    ((x :: xs).drop k).length le_rfl
    (by simp only [List.length_drop, List.length_cons]; omega) le_rfl

theorem chunks_length {α : Type u} (k : ℕ) (hk : 0 < k) (xs : List α) :
    (chunks k xs).length = (xs.length + k - 1) / k := by
  suffices H : ∀ (n : ℕ) (ys : List α), ys.length ≤ n →
      (chunks k ys).length = (ys.length + k - 1) / k from H xs.length xs le_rfl
  intro n
  induction n with
  | zero =>
    intro ys hn
    have : ys = [] := List.length_eq_zero.mp (Nat.le_zero.mp hn)
    subst this
    simp only [chunks_nil, List.length_nil]
    rw [Nat.div_eq_of_lt (by omega)]
  | succ n ih =>
    intro ys hn
    match ys with
    | [] =>
      simp only [chunks_nil, List.length_nil]
      rw [Nat.div_eq_of_lt (by omega)]
    | x :: xs =>
      rw [chunks_cons k hk]
      simp only [List.length_cons] at hn
      simp only [List.length_cons]
      have hdl : ((x :: xs).drop k).length = xs.length + 1 - k := by
        simp [List.length_drop]
      rcases Nat.lt_or_ge (xs.length + 1) k with hlt | hge
      · have hnil : (x :: xs).drop k = [] := by
          apply List.drop_eq_nil_of_le
          simpa using Nat.le_of_lt hlt
        rw [hnil]
        simp only [chunks_nil, List.length_cons, List.length_nil]
        have h1 : (xs.length + 1 + k - 1) / k = 1 :=
          Nat.div_eq_of_lt_le (by omega) (by omega)
        omega
      · have hrec := ih ((x :: xs).drop k) (by omega)
        rw [hrec, hdl]
        have h1 : xs.length + 1 - k + k - 1 = xs.length + 1 - 1 := by omega
        rw [h1]
        have h2 : xs.length + 1 + k - 1 = (xs.length + 1 - 1) + k := by omega
        rw [h2, Nat.add_div_right _ hk]

/-- Sum of a flattened list of lists in an additive monoid. -/
theorem sum_flatten_am {M : Type} [AddCommMonoid M] (ls : List (List M)) :
    ls.flatten.sum = (ls.map List.sum).sum := by
  induction ls with
  | nil => rfl
  | cons h t ih => simp [ih]

/-! ## Records

A record is an ordered association list from field names to values, the
embedding of a Python `dict`.  `getField` is `d[k]` (as an `Option`),
`hasField` is `k in d`, and `setField` is `d[k] = v` (overwrite in place,
or append preserving insertion order).
-/

abbrev Rec (V : Type) := List (String × V)

def getField {V : Type} (r : Rec V) (k : String) : Option V :=
  (r.find? (fun kv => kv.1 == k)).map (·.2)

def hasField {V : Type} (r : Rec V) (k : String) : Bool :=
  (r.find? (fun kv => kv.1 == k)).isSome

def setField {V : Type} (r : Rec V) (k : String) (v : V) : Rec V :=
  if hasField r k then r.map (fun kv => if kv.1 == k then (k, v) else kv)
  else r ++ [(k, v)]

/-! ## Configuration and the external-service oracle

`RConfig` carries the configuration keys of the reduce operation that the
executable paths read (`reduce_key`, presence of the fold/merge templates,
batch sizes, gleaning, pass-through, schemas, telemetry overrides).
Prompt template *text* never influences control flow, so templates are
represented by their presence only; rendering happens inside the oracle.

`Oracle` abstracts the out-of-scope collaborators (template renderer, model
invocation service with cost accounting and its gleaning variant, schema
validator).  Each response is the parsed first output record plus the cost
reported by `completion_cost`; the gleaning variant additionally reports its
own accumulated cost, per the collaborator contract of the spec.
-/

structure RConfig (V : Type) where
  reduce_key : String
  fold_prompt : Bool
  merge_prompt : Bool
  fold_batch_size : ℕ
  merge_batch_size : ℕ
  gleaning : Bool
  pass_through : Bool
  output_schema : List String
  input_schema : Option (List String)
  fold_time : Option ℚ
  merge_time : Option ℚ

structure Oracle (V : Type) where
  /-- `call_llm` for the batch-reduce prompt: parsed output and `completion_cost`. -/
  batchResp : V → List (Rec V) → Rec V × ℤ
  /-- `call_llm_with_gleaning`: parsed output, `completion_cost(response)`, gleaning cost. -/
  gleanResp : V → List (Rec V) → Rec V × ℤ × ℤ
  /-- `call_llm` for the fold prompt (batch and current output): parsed output and cost. -/
  foldResp : V → List (Rec V) → Rec V → Rec V × ℤ
  /-- `call_llm` for the merge prompt (list of outputs): parsed output and cost. -/
  mergeResp : V → List (Rec V) → Rec V × ℤ
  /-- `validate_output` on a produced record. -/
  valid : Rec V → Bool

/-- Result of one strategy or one primitive call: the produced record (or
`none` for a failed validation / aborted aggregation), the cost charged,
and the ledger of the individual model-call costs incurred. -/
structure StratOut (V : Type) where
  result : Option (Rec V)
  cost : ℤ
  ledger : List ℤ

/-! ## TelemetryTracker

The two rolling windows `fold_times` / `merge_times` are `deque(maxlen=1000)`
instances; `min_samples = 5`, `max_samples = 1000` from `__init__`.  The
single lock serializes access, so each operation is a pure state transition.
-/

structure Telemetry where
  fold_times : List ℚ
  merge_times : List ℚ

def min_samples : ℕ := 5

def max_samples : ℕ := 1000

/-- `deque(maxlen=m).append(x)`: append to the right, silently dropping the
oldest (leftmost) entries once the length exceeds `m`. -/
def dequeAppend (maxlen : ℕ) (xs : List ℚ) (x : ℚ) : List ℚ :=
  let ys := xs ++ [x]
  if maxlen < ys.length then ys.drop (ys.length - maxlen) else ys

/-- `_update_fold_time`: append the observed duration to the fold window. -/
def update_fold_time (st : Telemetry) (t : ℚ) : Telemetry :=
  { st with fold_times := dequeAppend max_samples st.fold_times t }

/-- `_update_merge_time`: append the observed duration to the merge window. -/
def update_merge_time (st : Telemetry) (t : ℚ) : Telemetry :=
  { st with merge_times := dequeAppend max_samples st.merge_times t }

/-- `get_fold_time`: configured override, else mean of the window once it
holds at least `min_samples` samples, else the placeholder `(1.0, True)`. -/
def get_fold_time {V : Type} (cfg : RConfig V) (st : Telemetry) : ℚ × Bool :=
  match cfg.fold_time with
  | some t => (t, false)
  | none =>
    if min_samples ≤ st.fold_times.length then
      (st.fold_times.sum / (st.fold_times.length : ℚ), false)
    else (1, true)

/-- `get_merge_time`: configured override, else mean of the window once it
holds at least `min_samples` samples, else the placeholder `(1.0, True)`. -/
def get_merge_time {V : Type} (cfg : RConfig V) (st : Telemetry) : ℚ × Bool :=
  match cfg.merge_time with
  | some t => (t, false)
  | none =>
    if min_samples ≤ st.merge_times.length then
      (st.merge_times.sum / (st.merge_times.length : ℚ), false)
    else (1, true)

/-- Claim C4: `get_fold_time` / `get_merge_time` return the configured
override with flag `false` whenever one is present, regardless of the
accumulated samples; otherwise the mean of the corresponding window with
flag `false` once it holds at least 5 samples; otherwise the placeholder
`(1.0, true)`. -/
theorem C4_time_estimates {V : Type} (cfg : RConfig V) (st : Telemetry) (t : ℚ) :
    (cfg.fold_time = some t → get_fold_time cfg st = (t, false))
    ∧ (cfg.fold_time = none → 5 ≤ st.fold_times.length →
        get_fold_time cfg st = (st.fold_times.sum / (st.fold_times.length : ℚ), false))
    ∧ (cfg.fold_time = none → st.fold_times.length < 5 →
        get_fold_time cfg st = (1, true))
    ∧ (cfg.merge_time = some t → get_merge_time cfg st = (t, false))
    ∧ (cfg.merge_time = none → 5 ≤ st.merge_times.length →
        get_merge_time cfg st = (st.merge_times.sum / (st.merge_times.length : ℚ), false))
    ∧ (cfg.merge_time = none → st.merge_times.length < 5 →
        get_merge_time cfg st = (1, true)) := by
  refine ⟨?_, ?_, ?_, ?_, ?_, ?_⟩ <;> intro h1
  · simp [get_fold_time, h1]
  · intro h2
    simp only [get_fold_time, h1, min_samples]
    rw [if_pos h2]
  · intro h2
    simp only [get_fold_time, h1, min_samples]
    rw [if_neg (by omega)]
  · simp [get_merge_time, h1]
  · intro h2
    simp only [get_merge_time, h1, min_samples]
    rw [if_pos h2]
  · intro h2
    simp only [get_merge_time, h1, min_samples]
    rw [if_neg (by omega)]

def cfgW : RConfig ℕ :=
  { reduce_key := "g", fold_prompt := true, merge_prompt := true,
    fold_batch_size := 3, merge_batch_size := 2, gleaning := false,
    pass_through := false, output_schema := ["v"], input_schema := none,
    fold_time := none, merge_time := some 7 }

theorem C4_time_estimates_witness :
    get_merge_time cfgW { fold_times := [2, 4], merge_times := [1, 1, 1, 1, 1, 1] } = (7, false)
    ∧ get_fold_time cfgW { fold_times := [2, 4], merge_times := [1, 1, 1, 1, 1, 1] } = (1, true) := by
  refine ⟨(C4_time_estimates cfgW _ 7).2.2.2.1 (by decide), ?_⟩
  have h := (C4_time_estimates cfgW { fold_times := [2, 4], merge_times := [1, 1, 1, 1, 1, 1] } 7).2.2.1
  exact h (by decide) (by decide)

/-- Claim C5: each telemetry window holds at most 1000 samples after any
`recordFold` / `recordMerge`; an append at capacity evicts exactly the
oldest sample (FIFO), an append below capacity is a plain append, and the
other window is untouched. -/
theorem C5_window_fifo (st : Telemetry) (t : ℚ) :
    (st.fold_times.length ≤ 1000 → (update_fold_time st t).fold_times.length ≤ 1000)
    ∧ (st.fold_times.length = 1000 →
        (update_fold_time st t).fold_times = st.fold_times.drop 1 ++ [t])
    ∧ (st.fold_times.length < 1000 →
        (update_fold_time st t).fold_times = st.fold_times ++ [t])
    ∧ (update_fold_time st t).merge_times = st.merge_times
    ∧ (st.merge_times.length ≤ 1000 → (update_merge_time st t).merge_times.length ≤ 1000)
    ∧ (st.merge_times.length = 1000 →
        (update_merge_time st t).merge_times = st.merge_times.drop 1 ++ [t])
    ∧ (st.merge_times.length < 1000 →
        (update_merge_time st t).merge_times = st.merge_times ++ [t])
    ∧ (update_merge_time st t).fold_times = st.fold_times := by
  have key : ∀ xs : List ℚ,
      (xs.length ≤ 1000 → (dequeAppend max_samples xs t).length ≤ 1000)
      ∧ (xs.length = 1000 → dequeAppend max_samples xs t = xs.drop 1 ++ [t])
      ∧ (xs.length < 1000 → dequeAppend max_samples xs t = xs ++ [t]) := by
    intro xs
    refine ⟨?_, ?_, ?_⟩
    · intro h
      simp only [dequeAppend, max_samples, List.length_append, List.length_singleton]
      by_cases hc : 1000 < xs.length + 1
      · rw [if_pos (by simpa using hc)]
        simp only [List.length_drop, List.length_append, List.length_singleton]
        omega
      · rw [if_neg (by simpa using hc)]
        simp only [List.length_append, List.length_singleton]
        omega
    · intro h
      simp only [dequeAppend, max_samples]
      rw [if_pos (by simp [h])]
      have hlen : (xs ++ [t]).length - 1000 = 1 := by simp [h]
      rw [hlen, List.drop_append_of_le_length (by omega)]
    · intro h
      simp only [dequeAppend, max_samples]
      rw [if_neg (by simp; omega)]
  exact ⟨(key st.fold_times).1, (key st.fold_times).2.1, (key st.fold_times).2.2,
    rfl, (key st.merge_times).1, (key st.merge_times).2.1, (key st.merge_times).2.2, rfl⟩

theorem C5_window_fifo_witness :
    ((update_fold_time { fold_times := [3], merge_times := [8] } 5).fold_times.length ≤ 1000)
    ∧ (update_fold_time { fold_times := [3], merge_times := [8] } 5).fold_times = [3, 5]
    ∧ (update_fold_time { fold_times := [3], merge_times := [8] } 5).merge_times = [8] := by
  have h := C5_window_fifo { fold_times := [3], merge_times := [8] } 5
  exact ⟨h.1 (by decide), h.2.2.1 (by decide), h.2.2.2.1⟩

/-! ## ConcurrencyEstimator

`calculate_num_parallel_folds` computes
`max(1, int(fold_time * num_group_items * math.log(merge_batch_size) /
(fold_batch_size * merge_time)))`.  Python floats are embedded as real
numbers; Python `int()` truncates toward zero, embedded as `truncToward`.
The function is a closure over the group and configuration; the timing
inputs come from `get_fold_time` / `get_merge_time`, so they are taken as
parameters here.
-/

/-- Python `int()` on a real: truncation toward zero. -/
noncomputable def truncToward (x : ℝ) : ℤ :=
  if 0 ≤ x then ⌊x⌋ else ⌈x⌉

/-- `calculate_num_parallel_folds` from `_parallel_fold_and_merge`. -/
noncomputable def calculate_num_parallel_folds (fold_time merge_time : ℝ)
    (num_group_items fold_batch_size merge_batch_size : ℕ) : ℤ :=
  max 1 (truncToward ((fold_time * num_group_items * Real.log merge_batch_size)
    / (fold_batch_size * merge_time)))

/-- Claim C3: for positive timings and batch sizes the lane estimate equals
`max 1 ⌊foldTime * groupSize * ln(mergeBatchSize) / (foldBatchSize * mergeTime)⌋`
and is never below 1, including at `merge_batch_size = 1` where the
logarithm vanishes. -/
theorem C3_lane_estimate (fold_time merge_time : ℝ)
    (num_group_items fold_batch_size merge_batch_size : ℕ)
    (hf : 0 < fold_time) (hm : 0 < merge_time) (hn : 0 < num_group_items)
    (hfb : 0 < fold_batch_size) (hmb : 0 < merge_batch_size) :
    calculate_num_parallel_folds fold_time merge_time
        num_group_items fold_batch_size merge_batch_size
      = max 1 ⌊(fold_time * num_group_items * Real.log merge_batch_size)
          / (fold_batch_size * merge_time)⌋
    ∧ 1 ≤ calculate_num_parallel_folds fold_time merge_time
        num_group_items fold_batch_size merge_batch_size := by
  have hlog : 0 ≤ Real.log merge_batch_size := by
    apply Real.log_nonneg
    exact_mod_cast hmb
  have hnum : 0 ≤ fold_time * num_group_items * Real.log merge_batch_size := by
    apply mul_nonneg (mul_nonneg hf.le (by positivity)) hlog
  have hden : 0 < (fold_batch_size : ℝ) * merge_time := by positivity
  have hq : 0 ≤ (fold_time * num_group_items * Real.log merge_batch_size)
      / (fold_batch_size * merge_time) := div_nonneg hnum hden.le
  constructor
  · simp only [calculate_num_parallel_folds, truncToward, if_pos hq]
  · exact le_max_left 1 _

theorem C3_lane_estimate_witness :
    (0 : ℝ) < 1 ∧
    calculate_num_parallel_folds 1 1 1 1 1
      = max 1 ⌊((1 : ℝ) * (1 : ℕ) * Real.log (1 : ℕ)) / ((1 : ℕ) * (1 : ℝ))⌋ := by
  have h := C3_lane_estimate 1 1 1 1 1 (by norm_num) (by norm_num)
    (by norm_num) (by norm_num) (by norm_num)
  exact ⟨by norm_num, h.1⟩

/-! ## ParallelFoldMergeEngine: fold-phase fragments

The fold phase of one iteration of the `while remaining_items` loop
(`_parallel_fold_and_merge`): `min(num_parallel_folds, len(remaining_items))`
tasks are submitted, task `i` receiving the slice
`remaining_items[i*fold_batch_size : (i+1)*fold_batch_size]` and the prior
accumulator `fold_results[i]` when `i < len(fold_results)` (else `None`);
then, `new_fold_results` being the non-`None` results in `as_completed`
order, `fold_results = new_fold_results + fold_results[len(new_fold_results):]`.
-/

/-- The lane tasks submitted in one fold phase: for each
`i < min(num_parallel_folds, len(remaining_items))`, the batch of records
lane `i` consumes and its prior accumulator (if any). -/
def scheduleFoldTasks (num_parallel_folds fold_batch_size : ℕ)
    (fold_results : List β) (remaining_items : List ρ) : List (List ρ × Option β) :=
  (List.range (min num_parallel_folds remaining_items.length)).map fun i =>
    ((remaining_items.drop (i * fold_batch_size)).take fold_batch_size,
      fold_results[i]?)

/-- `fold_results = new_fold_results + fold_results[len(new_fold_results):]`
where `new_fold_results` collects the non-`None` results in completion
order. -/
def applyFoldCompletions (fold_results : List β) (completed : List (Option β)) :
    List β :=
  let new_fold_results := completed.filterMap id
  new_fold_results ++ fold_results.drop new_fold_results.length

/-- Claim C1: one fold phase schedules exactly
`min(numLanes, len(remaining))` lane tasks, lane `i` folding the next
`fold_batch_size` records against the prior accumulator `fold_results[i]`
(none on a lane's first turn); after all tasks finish, the first `k` lane
accumulators are overwritten positionally by the `k` completed (non-absent)
results in completion order, and every accumulator at position `≥ k` keeps
its previous value. -/
theorem C1_fold_phase (num_parallel_folds fold_batch_size i : ℕ)
    (fold_results : List β) (remaining_items : List ρ)
    (completed : List (Option β)) :
    (scheduleFoldTasks num_parallel_folds fold_batch_size fold_results
        remaining_items).length = min num_parallel_folds remaining_items.length
    ∧ (i < min num_parallel_folds remaining_items.length →
        (scheduleFoldTasks num_parallel_folds fold_batch_size fold_results
            remaining_items)[i]? =
          some ((remaining_items.drop (i * fold_batch_size)).take fold_batch_size,
            fold_results[i]?))
    ∧ (applyFoldCompletions fold_results completed).take
        (completed.filterMap id).length = completed.filterMap id
    ∧ ((completed.filterMap id).length ≤ i →
        (applyFoldCompletions fold_results completed)[i]? = fold_results[i]?) := by
  refine ⟨?_, ?_, ?_, ?_⟩
  · simp [scheduleFoldTasks]
  · intro hi
    simp only [scheduleFoldTasks, List.getElem?_map, List.getElem?_range hi]
    rfl
  · simp only [applyFoldCompletions]
    rw [List.take_append_of_le_length le_rfl, List.take_length]
  · intro hk
    simp only [applyFoldCompletions]
    rw [List.getElem?_append_right (by simpa using hk)]
    rcases Nat.lt_or_ge i fold_results.length with h | h
    · rw [List.getElem?_drop]
      congr 1
      omega
    · rw [List.getElem?_eq_none (by simp; omega), List.getElem?_eq_none (by omega)]

theorem C1_fold_phase_witness :
    (scheduleFoldTasks 2 3 ([10] : List ℕ) ([0, 1, 2, 3] : List ℕ)).length
        = min 2 ([0, 1, 2, 3] : List ℕ).length
    ∧ (scheduleFoldTasks 2 3 ([10] : List ℕ) ([0, 1, 2, 3] : List ℕ))[1]? =
        some ((([0, 1, 2, 3] : List ℕ).drop (1 * 3)).take 3, ([10] : List ℕ)[1]?)
    ∧ (applyFoldCompletions ([10, 11] : List ℕ) [some 5, none, some 6]).take
        (([some 5, none, some 6].filterMap id).length) = [some 5, none, some 6].filterMap id
    ∧ (applyFoldCompletions ([10, 11, 12] : List ℕ) [some 5])[2]? = ([10, 11, 12] : List ℕ)[2]? := by
  refine ⟨(C1_fold_phase 2 3 1 ([10] : List ℕ) ([0, 1, 2, 3] : List ℕ) []).1,
    (C1_fold_phase 2 3 1 ([10] : List ℕ) ([0, 1, 2, 3] : List ℕ) []).2.1 (by decide),
    (C1_fold_phase 2 3 1 ([10, 11] : List ℕ) ([] : List ℕ) [some 5, none, some 6]).2.2.1,
    (C1_fold_phase 2 3 2 ([10, 11, 12] : List ℕ) ([] : List ℕ) [some 5]).2.2.2 (by decide)⟩

/-! ## BatchReducer, fold primitive, Merger

Each primitive renders its prompt, invokes the model once (the oracle),
injects the reduce key into the parsed output, accounts the cost regardless
of the validation outcome, and returns the record only if validation passes.
The `ledger` field records the model-call costs this invocation incurred;
in the gleaning branch these are the cost reported by the gleaning variant
and the `completion_cost` of the returned response, exactly the two amounts
`_batch_reduce` adds to `item_cost`.  Timing telemetry
(`_update_fold_time` / `_update_merge_time`) affects only the scheduler
inputs, which the engine receives through its control parameters, so the
primitives themselves are pure.
-/

variable {V : Type}

/-- `_batch_reduce`. -/
def batch_reduce (o : Oracle V) (cfg : RConfig V) (key : V)
    (group_list : List (Rec V)) : StratOut V :=
  if cfg.gleaning then
    let r := o.gleanResp key group_list
    let item_cost := r.2.2 + r.2.1
    let output := setField r.1 cfg.reduce_key key
    { result := if o.valid output then some output else none,
      cost := item_cost, ledger := [r.2.2, r.2.1] }
  else
    let r := o.batchResp key group_list
    let output := setField r.1 cfg.reduce_key key
    { result := if o.valid output then some output else none,
      cost := r.2, ledger := [r.2] }

/-- `_increment_fold`: degenerates to `_batch_reduce` without a prior
accumulator, else one fold call. -/
def increment_fold (o : Oracle V) (cfg : RConfig V) (key : V)
    (batch : List (Rec V)) (current_output : Option (Rec V)) : StratOut V :=
  match current_output with
  | none => batch_reduce o cfg key batch
  | some cur =>
    let r := o.foldResp key batch cur
    let folded_output := setField r.1 cfg.reduce_key key
    { result := if o.valid folded_output then some folded_output else none,
      cost := r.2, ledger := [r.2] }

/-- `_merge_results`: one merge call on a list of outputs. -/
def merge_results (o : Oracle V) (cfg : RConfig V) (key : V)
    (outputs : List (Rec V)) : StratOut V :=
  let r := o.mergeResp key outputs
  let merged_output := setField r.1 cfg.reduce_key key
  { result := if o.valid merged_output then some merged_output else none,
    cost := r.2, ledger := [r.2] }

theorem batch_reduce_cost_ledger (o : Oracle V) (cfg : RConfig V) (key : V)
    (group_list : List (Rec V)) :
    (batch_reduce o cfg key group_list).cost
      = (batch_reduce o cfg key group_list).ledger.sum := by
  simp only [batch_reduce]
  by_cases h : cfg.gleaning <;> simp [h, add_comm]

theorem increment_fold_cost_ledger (o : Oracle V) (cfg : RConfig V) (key : V)
    (batch : List (Rec V)) (current_output : Option (Rec V)) :
    (increment_fold o cfg key batch current_output).cost
      = (increment_fold o cfg key batch current_output).ledger.sum := by
  match current_output with
  | none => exact batch_reduce_cost_ledger o cfg key batch
  | some cur => simp [increment_fold]

theorem merge_results_cost_ledger (o : Oracle V) (cfg : RConfig V) (key : V)
    (outputs : List (Rec V)) :
    (merge_results o cfg key outputs).cost
      = (merge_results o cfg key outputs).ledger.sum := by
  simp [merge_results]

/-! ## IncrementalFolder

`_incremental_reduce` iterates `for i in range(0, len(group_list),
fold_batch_size)`, folding `group_list[i : i + fold_batch_size]` into the
running output, and aborts with `(None, total_cost)` as soon as a fold
returns `None`.  The embedding additionally records, in `calls`, every
fold invocation actually performed, as the triple of the batch passed, the
`current_output` accumulator it was folded against, and the result the
invocation returned — so that both the sequence of model calls and each
call's outcome are observable.
-/

structure IncOut (V : Type) where
  result : Option (Rec V)
  cost : ℤ
  ledger : List ℤ
  calls : List (List (Rec V) × Option (Rec V) × Option (Rec V))

def incrementalGo (o : Oracle V) (cfg : RConfig V) (key : V) :
    List (List (Rec V)) → Option (Rec V) → ℤ → List ℤ →
      List (List (Rec V) × Option (Rec V) × Option (Rec V)) → IncOut V
  | [], current_output, total_cost, ledger, calls =>
    ⟨current_output, total_cost, ledger, calls⟩
  | batch :: rest, current_output, total_cost, ledger, calls =>
    let s := increment_fold o cfg key batch current_output
    match s.result with
    | none => ⟨none, total_cost + s.cost, ledger ++ s.ledger,
        calls ++ [(batch, current_output, s.result)]⟩
    | some folded_output =>
      incrementalGo o cfg key rest (some folded_output) (total_cost + s.cost)
        (ledger ++ s.ledger) (calls ++ [(batch, current_output, s.result)])

/-- `_incremental_reduce`. -/
def incremental_reduce (o : Oracle V) (cfg : RConfig V) (key : V)
    (group_list : List (Rec V)) : IncOut V :=
  incrementalGo o cfg key (chunks cfg.fold_batch_size group_list) none 0 [] []

theorem incrementalGo_calls_take (o : Oracle V) (cfg : RConfig V) (key : V) :
    ∀ (bs : List (List (Rec V))) (cur : Option (Rec V)) (c : ℤ) (led : List ℤ)
      (calls : List (List (Rec V) × Option (Rec V) × Option (Rec V))),
      ∃ n, (incrementalGo o cfg key bs cur c led calls).calls.map (·.1)
        = calls.map (·.1) ++ bs.take n := by
  intro bs
  induction bs with
  | nil => exact fun cur c led calls => ⟨0, by simp [incrementalGo]⟩
  | cons b rest ih =>
    intro cur c led calls
    simp only [incrementalGo]
    cases hres : (increment_fold o cfg key b cur).result with
    | none => exact ⟨1, by simp⟩
    | some out =>
      obtain ⟨n, hn⟩ := ih (some out) (c + (increment_fold o cfg key b cur).cost)
        (led ++ (increment_fold o cfg key b cur).ledger)
        (calls ++ [(b, cur, some out)])
      refine ⟨n + 1, ?_⟩
      rw [hn]
      simp [List.take_succ_cons]

theorem incrementalGo_cost_ledger (o : Oracle V) (cfg : RConfig V) (key : V) :
    ∀ (bs : List (List (Rec V))) (cur : Option (Rec V)) (c : ℤ) (led : List ℤ)
      (calls : List (List (Rec V) × Option (Rec V) × Option (Rec V))),
      c = led.sum →
      (incrementalGo o cfg key bs cur c led calls).cost
        = (incrementalGo o cfg key bs cur c led calls).ledger.sum := by
  intro bs
  induction bs with
  | nil => intro cur c led calls h; simpa [incrementalGo] using h
  | cons b rest ih =>
    intro cur c led calls h
    simp only [incrementalGo]
    have hs := increment_fold_cost_ledger o cfg key b cur
    cases hres : (increment_fold o cfg key b cur).result with
    | none => simp [h, hs]
    | some out => exact ih _ _ _ _ (by simp [h, hs])

theorem incrementalGo_all_some (o : Oracle V) (cfg : RConfig V) (key : V)
    (htotal : ∀ (b : List (Rec V)) (cur : Option (Rec V)),
      (increment_fold o cfg key b cur).result.isSome) :
    ∀ (bs : List (List (Rec V))) (cur : Option (Rec V)) (c : ℤ) (led : List ℤ)
      (calls : List (List (Rec V) × Option (Rec V) × Option (Rec V))),
      (incrementalGo o cfg key bs cur c led calls).calls.map (·.1)
        = calls.map (·.1) ++ bs := by
  intro bs
  induction bs with
  | nil => intro cur c led calls; simp [incrementalGo]
  | cons b rest ih =>
    intro cur c led calls
    simp only [incrementalGo]
    cases hres : (increment_fold o cfg key b cur).result with
    | none => exact absurd hres (by have := htotal b cur; simp_all)
    | some out =>
      rw [ih]
      simp

theorem incrementalGo_partial_none (o : Oracle V) (cfg : RConfig V) (key : V) :
    ∀ (bs : List (List (Rec V))) (cur : Option (Rec V)) (c : ℤ) (led : List ℤ)
      (calls : List (List (Rec V) × Option (Rec V) × Option (Rec V))),
      (incrementalGo o cfg key bs cur c led calls).calls.map (·.1)
          = calls.map (·.1) ++ bs
      ∨ (incrementalGo o cfg key bs cur c led calls).result = none := by
  intro bs
  induction bs with
  | nil => intro cur c led calls; left; simp [incrementalGo]
  | cons b rest ih =>
    intro cur c led calls
    simp only [incrementalGo]
    cases hres : (increment_fold o cfg key b cur).result with
    | none => right; rfl
    | some out =>
      rcases ih (some out) (c + (increment_fold o cfg key b cur).cost)
        (led ++ (increment_fold o cfg key b cur).ledger)
        (calls ++ [(b, cur, some out)]) with h | h
      · left
        rw [h]
        simp
      · right; exact h

/-- Every logged call is a genuine fold invocation: its recorded outcome is
what `_increment_fold` returns on its recorded batch and prior
accumulator. -/
theorem incrementalGo_entries (o : Oracle V) (cfg : RConfig V) (key : V) :
    ∀ (bs : List (List (Rec V))) (cur : Option (Rec V)) (c : ℤ) (led : List ℤ)
      (calls : List (List (Rec V) × Option (Rec V) × Option (Rec V))),
      ∀ e ∈ (incrementalGo o cfg key bs cur c led calls).calls,
        e ∈ calls ∨ e.2.2 = (increment_fold o cfg key e.1 e.2.1).result := by
  intro bs
  induction bs with
  | nil => intro cur c led calls e he; exact Or.inl he
  | cons b rest ih =>
    intro cur c led calls e he
    simp only [incrementalGo] at he
    cases hres : (increment_fold o cfg key b cur).result with
    | none =>
      rw [hres] at he
      simp only at he
      rcases List.mem_append.mp he with h | h
      · exact Or.inl h
      · right
        rcases List.mem_singleton.mp h with rfl
        exact hres.symm
    | some out =>
      rw [hres] at he
      simp only at he
      rcases ih (some out) (c + (increment_fold o cfg key b cur).cost)
        (led ++ (increment_fold o cfg key b cur).ledger)
        (calls ++ [(b, cur, some out)]) e he with h | h
      · rcases List.mem_append.mp h with h2 | h2
        · exact Or.inl h2
        · right
          rcases List.mem_singleton.mp h2 with rfl
          exact hres.symm
      · exact Or.inr h

/-- If any performed fold returned absent, the incremental reduction's
result is absent. -/
theorem incrementalGo_abort (o : Oracle V) (cfg : RConfig V) (key : V) :
    ∀ (bs : List (List (Rec V))) (cur : Option (Rec V)) (c : ℤ) (led : List ℤ)
      (calls : List (List (Rec V) × Option (Rec V) × Option (Rec V))),
      (∀ e ∈ calls, e.2.2.isSome = true) →
      (∃ e ∈ (incrementalGo o cfg key bs cur c led calls).calls, e.2.2 = none) →
      (incrementalGo o cfg key bs cur c led calls).result = none := by
  intro bs
  induction bs with
  | nil =>
    intro cur c led calls hprior ⟨e, he, hnone⟩
    have := hprior e he
    rw [hnone] at this
    simp at this
  | cons b rest ih =>
    intro cur c led calls hprior hex
    simp only [incrementalGo] at hex ⊢
    cases hres : (increment_fold o cfg key b cur).result with
    | none => rfl
    | some out =>
      rw [hres] at hex
      refine ih (some out) _ _ (calls ++ [(b, cur, some out)]) ?_ hex
      intro e he
      rcases List.mem_append.mp he with h | h
      · exact hprior e h
      · rcases List.mem_singleton.mp h with rfl
        rfl

/-- The incremental reduction aborts immediately: no fold call is performed
after one that returned absent, so every logged call except possibly the
last has a present outcome. -/
theorem incrementalGo_immediate (o : Oracle V) (cfg : RConfig V) (key : V) :
    ∀ (bs : List (List (Rec V))) (cur : Option (Rec V)) (c : ℤ) (led : List ℤ)
      (calls : List (List (Rec V) × Option (Rec V) × Option (Rec V))),
      (∀ e ∈ calls, e.2.2.isSome = true) →
      ∀ e ∈ (incrementalGo o cfg key bs cur c led calls).calls.dropLast,
        e.2.2.isSome = true := by
  intro bs
  induction bs with
  | nil =>
    intro cur c led calls hprior e he
    exact hprior e ((List.dropLast_sublist _).mem he)
  | cons b rest ih =>
    intro cur c led calls hprior e he
    simp only [incrementalGo] at he
    cases hres : (increment_fold o cfg key b cur).result with
    | none =>
      rw [hres] at he
      simp only at he
      rw [List.dropLast_concat] at he
      exact hprior e he
    | some out =>
      rw [hres] at he
      simp only at he
      refine ih (some out) _ _ (calls ++ [(b, cur, some out)]) ?_ e he
      intro e2 he2
      rcases List.mem_append.mp he2 with h | h
      · exact hprior e2 h
      · rcases List.mem_singleton.mp h with rfl
        rfl

/-- Claim C7: the incremental strategy processes the group as the
sequential batches `group[0:s], group[s:2s], ...` (`s = fold_batch_size`):
the batches of the performed fold calls are always an initial segment of
that batch list, the reported cost is exactly the accumulated cost of the
calls performed, each logged outcome is the genuine `_increment_fold`
result on its batch and prior accumulator, any performed fold returning
absent makes the whole reduction return absent (no partial record), the
abort is immediate (no call follows an absent outcome), all batches are
folded when no fold returns absent, and any early stop yields an absent
result. -/
theorem C7_incremental (o : Oracle V) (cfg : RConfig V) (key : V)
    (group_list : List (Rec V)) (hfb : 0 < cfg.fold_batch_size) :
    ((incremental_reduce o cfg key group_list).calls.map (·.1) =
        (chunks cfg.fold_batch_size group_list).take
          (incremental_reduce o cfg key group_list).calls.length)
    ∧ ((incremental_reduce o cfg key group_list).cost
        = (incremental_reduce o cfg key group_list).ledger.sum)
    ∧ (∀ e ∈ (incremental_reduce o cfg key group_list).calls,
        e.2.2 = (increment_fold o cfg key e.1 e.2.1).result)
    ∧ ((∃ e ∈ (incremental_reduce o cfg key group_list).calls, e.2.2 = none) →
        (incremental_reduce o cfg key group_list).result = none)
    ∧ (∀ e ∈ (incremental_reduce o cfg key group_list).calls.dropLast,
        e.2.2.isSome = true)
    ∧ ((∀ (b : List (Rec V)) (cur : Option (Rec V)),
          (increment_fold o cfg key b cur).result.isSome) →
        (incremental_reduce o cfg key group_list).calls.map (·.1)
          = chunks cfg.fold_batch_size group_list)
    ∧ ((incremental_reduce o cfg key group_list).calls.map (·.1)
          ≠ chunks cfg.fold_batch_size group_list →
        (incremental_reduce o cfg key group_list).result = none) := by
  refine ⟨?_, ?_, ?_, ?_, ?_, ?_, ?_⟩
  · obtain ⟨n, hn⟩ := incrementalGo_calls_take o cfg key
      (chunks cfg.fold_batch_size group_list) none 0 [] []
    simp only [List.map_nil, List.nil_append] at hn
    have hlen : (incrementalGo o cfg key (chunks cfg.fold_batch_size group_list)
        none 0 [] []).calls.length
        = (List.take n (chunks cfg.fold_batch_size group_list)).length := by
      rw [← hn, List.length_map]
    simp only [incremental_reduce, hn, hlen, List.length_take]
    rcases le_total n (chunks cfg.fold_batch_size group_list).length with h | h
    · rw [Nat.min_eq_left h]
    · rw [Nat.min_eq_right h, List.take_of_length_le h, List.take_of_length_le le_rfl]
  · exact incrementalGo_cost_ledger o cfg key _ none 0 [] [] (by simp)
  · intro e he
    rcases incrementalGo_entries o cfg key
      (chunks cfg.fold_batch_size group_list) none 0 [] [] e he with h | h
    · simp at h
    · exact h
  · exact incrementalGo_abort o cfg key
      (chunks cfg.fold_batch_size group_list) none 0 [] [] (by simp)
  · exact incrementalGo_immediate o cfg key
      (chunks cfg.fold_batch_size group_list) none 0 [] [] (by simp)
  · intro htotal
    simpa using incrementalGo_all_some o cfg key htotal
      (chunks cfg.fold_batch_size group_list) none 0 [] []
  · intro hne
    rcases incrementalGo_partial_none o cfg key
      (chunks cfg.fold_batch_size group_list) none 0 [] [] with h | h
    · exact absurd (by simpa using h) hne
    · exact h

def oracleW : Oracle ℕ :=
  { batchResp := fun _ _ => ([("v", 0)], 1)
    gleanResp := fun _ _ => ([("v", 0)], 1, 2)
    foldResp := fun _ _ _ => ([("v", 0)], 1)
    mergeResp := fun _ _ => ([("v", 0)], 1)
    valid := fun _ => true }

/-- Like `oracleW`, but the schema validator rejects every record, so every
fold returns absent. -/
def oracleF : Oracle ℕ :=
  { oracleW with valid := fun _ => false }

def groupW : List (Rec ℕ) := (List.range 7).map (fun i => [("g", 1), ("x", i)])

theorem oracleW_fold_total (b : List (Rec ℕ)) (cur : Option (Rec ℕ)) :
    (increment_fold oracleW cfgW 1 b cur).result.isSome := by
  cases cur <;> simp [increment_fold, batch_reduce, oracleW, cfgW]

theorem C7_incremental_witness :
    (incremental_reduce oracleW cfgW 1 groupW).calls.map (·.1) = chunks 3 groupW
    ∧ (chunks 3 groupW).map List.length = [3, 3, 1]
    ∧ (incremental_reduce oracleW cfgW 1 groupW).cost
        = (incremental_reduce oracleW cfgW 1 groupW).ledger.sum
    ∧ (incremental_reduce oracleF cfgW 1 groupW).result = none := by
  have h := C7_incremental oracleW cfgW 1 groupW (by decide)
  have hf := C7_incremental oracleF cfgW 1 groupW (by decide)
  exact ⟨h.2.2.2.2.2.1 oracleW_fold_total, by decide, h.2.1,
    hf.2.2.2.1 (by decide)⟩

/-! ## ParallelFoldMergeEngine: merging passes and final merge-down

One merging pass (both the early single-pass merge inside the fold loop and
one iteration of the final `while len(fold_results) > 1` loop) partitions
the accumulators into contiguous chunks of `merge_batch_size`, submits one
`_merge_results` task per chunk, and replaces the accumulator list with the
non-`None` merge results in `as_completed` order (`reorder`).  The final
merge-down repeats this while more than one accumulator remains; `fuel`
bounds the number of iterations of the source's `while` loop, which the
loop never exhausts when `merge_batch_size ≥ 2`.
-/

def mergeRound (o : Oracle V) (cfg : RConfig V) (key : V)
    (reorder : List (StratOut V) → List (StratOut V))
    (fold_results : List (Rec V)) : List (Rec V) × ℤ × List ℤ :=
  let merge_futures := (chunks cfg.merge_batch_size fold_results).map
    (merge_results o cfg key)
  let comp := reorder merge_futures
  (comp.filterMap (·.result), (comp.map (·.cost)).sum,
    (comp.map (·.ledger)).flatten)

def mergeDownLoop (o : Oracle V) (cfg : RConfig V)
    (reorder : ℕ → List (StratOut V) → List (StratOut V)) (key : V) :
    ℕ → ℕ → List (Rec V) → ℤ → List ℤ → List (Rec V) × ℤ × List ℤ
  | 0, _, fold_results, total_cost, ledger => (fold_results, total_cost, ledger)
  | fuel + 1, t, fold_results, total_cost, ledger =>
    if fold_results.length ≤ 1 then (fold_results, total_cost, ledger)
    else
      let r := mergeRound o cfg key (reorder t) fold_results
      mergeDownLoop o cfg reorder key fuel (t + 1) r.1 (total_cost + r.2.1)
        (ledger ++ r.2.2)

theorem length_filterMap_result (l : List (StratOut V))
    (h : ∀ s ∈ l, s.result.isSome) :
    (l.filterMap (·.result)).length = l.length := by
  induction l with
  | nil => rfl
  | cons s rest ih =>
    have hs := h s (List.mem_cons_self s rest)
    obtain ⟨r, hr⟩ := Option.isSome_iff_exists.mp hs
    simp only [List.filterMap_cons, hr, List.length_cons]
    rw [ih (fun x hx => h x (List.mem_cons_of_mem s hx))]

theorem mergeRound_length (o : Oracle V) (cfg : RConfig V) (key : V)
    (reorder : List (StratOut V) → List (StratOut V))
    (fold_results : List (Rec V)) (hk : 0 < cfg.merge_batch_size)
    (hperm : ∀ xs, List.Perm (reorder xs) xs)
    (hsome : ∀ chunk, (merge_results o cfg key chunk).result.isSome) :
    (mergeRound o cfg key reorder fold_results).1.length
      = (fold_results.length + cfg.merge_batch_size - 1) / cfg.merge_batch_size := by
  simp only [mergeRound]
  have hmem : ∀ s ∈ reorder ((chunks cfg.merge_batch_size fold_results).map
      (merge_results o cfg key)), s.result.isSome := by
    intro s hmem
    have : s ∈ (chunks cfg.merge_batch_size fold_results).map
        (merge_results o cfg key) := (hperm _).mem_iff.mp hmem
    obtain ⟨c, _, hc⟩ := List.mem_map.mp this
    exact hc ▸ hsome c
  rw [length_filterMap_result _ hmem, (hperm _).length_eq, List.length_map,
    chunks_length _ hk]

/-- Claim C2 (amended to `merge_batch_size ≥ 2`): the final merge-down of
`N ≥ 1` accumulators repeatedly partitions them into contiguous chunks of
`merge_batch_size = k` and merges each chunk; when no merge call returns
absent it terminates within `ceil(log_k N) = Nat.clog k N` rounds and
leaves exactly one accumulator. -/
theorem C2_merge_down (o : Oracle V) (cfg : RConfig V) (key : V)
    (reorder : ℕ → List (StratOut V) → List (StratOut V))
    (N fuel t : ℕ) (xs : List (Rec V)) (total_cost : ℤ) (ledger : List ℤ)
    (hk : 2 ≤ cfg.merge_batch_size)
    (hperm : ∀ t xs, List.Perm (reorder t xs) xs)
    (hsome : ∀ chunk, (merge_results o cfg key chunk).result.isSome)
    (hN : xs.length = N) (hN1 : 1 ≤ N)
    (hfuel : Nat.clog cfg.merge_batch_size N ≤ fuel) :
    (mergeDownLoop o cfg reorder key fuel t xs total_cost ledger).1.length = 1 := by
  induction N using Nat.strong_induction_on generalizing fuel t xs total_cost ledger with
  | _ N ih =>
    rcases Nat.lt_or_ge N 2 with hN2 | hN2
    · have hN' : N = 1 := by omega
      subst hN'
      match fuel with
      | 0 => simpa using hN
      | fuel + 1 =>
        simp only [mergeDownLoop]
        rw [if_pos (by omega)]
        exact hN
    · have hkk : 1 < cfg.merge_batch_size := by omega
      have hclog : Nat.clog cfg.merge_batch_size N
          = Nat.clog cfg.merge_batch_size
              ((N + cfg.merge_batch_size - 1) / cfg.merge_batch_size) + 1 :=
        Nat.clog_of_two_le hkk hN2
      match fuel with
      | 0 => omega
      | fuel + 1 =>
        simp only [mergeDownLoop]
        rw [if_neg (by omega)]
        have hlen : (mergeRound o cfg key (reorder t) xs).1.length
            = (N + cfg.merge_batch_size - 1) / cfg.merge_batch_size := by
          rw [mergeRound_length o cfg key (reorder t) xs (by omega) (hperm t) hsome, hN]
        have hlt : (N + cfg.merge_batch_size - 1) / cfg.merge_batch_size < N :=
          Nat.add_pred_div_lt hkk (by omega)
        have hge1 : 1 ≤ (N + cfg.merge_batch_size - 1) / cfg.merge_batch_size := by
          rw [Nat.le_div_iff_mul_le (by omega)]
          omega
        exact ih _ hlt _ _ _ _ _ hlen hge1 (by omega)

/-- Claim C2, counterexample to the claim as stated: with the positive
merge batch size `k = 1` and two accumulators, every merging pass maps each
singleton chunk to one (non-absent) merged result, so the accumulator count
never drops below 2 and the `while len(fold_results) > 1` loop never
terminates — no number of rounds leaves one accumulator. -/
def cfgK1 : RConfig ℕ :=
  { cfgW with merge_batch_size := 1 }

theorem mergeDownLoop_cfgK1_stuck :
    ∀ (fuel t : ℕ) (xs : List (Rec ℕ)) (total_cost : ℤ) (ledger : List ℤ),
      xs.length = 2 →
      (mergeDownLoop oracleW cfgK1 (fun _ l => l) 1 fuel t xs
          total_cost ledger).1.length = 2 := by
  intro fuel
  induction fuel with
  | zero => intro t xs c l h; simpa using h
  | succ fuel ih =>
    intro t xs c l h
    simp only [mergeDownLoop]
    rw [if_neg (by omega)]
    apply ih
    rw [mergeRound_length oracleW cfgK1 1 _ xs (by decide) (fun xs => List.Perm.refl xs)
      (by intro chunk; simp [merge_results, oracleW]), h]
    decide

theorem C2_counterexample :
    ¬ ∃ fuel : ℕ,
      (mergeDownLoop oracleW cfgK1 (fun _ l => l) 1 fuel 0
          [[("v", 0)], [("v", 1)]] 0 []).1.length = 1 := by
  rintro ⟨fuel, h⟩
  rw [mergeDownLoop_cfgK1_stuck fuel 0 [[("v", 0)], [("v", 1)]] 0 [] (by decide)] at h
  exact absurd h (by decide)

def fiveW : List (Rec ℕ) := (List.range 5).map (fun i => [("v", i)])

theorem C2_merge_down_witness :
    (mergeDownLoop oracleW cfgW (fun _ l => l) 1 (Nat.clog 2 5) 0 fiveW 0 []).1.length = 1
    ∧ (mergeRound oracleW cfgW 1 (fun l => l) fiveW).1.length = 3
    ∧ (mergeRound oracleW cfgW 1 (fun l => l)
        (mergeRound oracleW cfgW 1 (fun l => l) fiveW).1).1.length = 2
    ∧ (mergeRound oracleW cfgW 1 (fun l => l)
        (mergeRound oracleW cfgW 1 (fun l => l)
          (mergeRound oracleW cfgW 1 (fun l => l) fiveW).1).1).1.length = 1 := by
  refine ⟨?_, by decide, by decide, by decide⟩
  exact C2_merge_down oracleW cfgW 1 (fun _ l => l) 5 (Nat.clog 2 5) 0 fiveW 0 []
    (by decide) (fun t xs => List.Perm.refl xs)
    (by intro chunk; simp [merge_results, oracleW]) (by decide) (by decide) le_rfl

/-! ## ParallelFoldMergeEngine: the full engine

The `while remaining_items` loop of `_parallel_fold_and_merge` alternates a
fold phase (§ fragments above), an early single-pass merge phase guarded by
`len(self.merge_times) < self.min_samples and len(fold_results) >=
merge_batch_size`, and a recalculation of `num_parallel_folds`.  Runtime
inputs that the source draws from shared telemetry and the thread pool are
engine control parameters:

* `lanes t` — the value of `num_parallel_folds` during iteration `t`
  (computed by `calculate_num_parallel_folds` from float telemetry, and
  hence `≥ 1` in the source, by claim C3);
* `earlyMergeOn t` — the truth of `len(self.merge_times) < min_samples`
  at iteration `t`;
* `reorderFold` / `reorderMerge` / `reorderFinal` — the `as_completed`
  completion orders of the three kinds of task batches (permutations of
  submission order in any real execution).

`fuel` bounds the iterations of the source's `while` loop; with a validated
configuration (`fold_batch_size ≥ 1`, `lanes ≥ 1`) each iteration consumes
at least one record, so `len(group_list)` iterations always suffice.
-/

structure EngineCtl (V : Type) where
  lanes : ℕ → ℕ
  earlyMergeOn : ℕ → Bool
  reorderFold : ℕ → List (StratOut V) → List (StratOut V)
  reorderMerge : ℕ → List (StratOut V) → List (StratOut V)
  reorderFinal : ℕ → List (StratOut V) → List (StratOut V)

def engineFoldLoop (o : Oracle V) (cfg : RConfig V) (ctl : EngineCtl V) (key : V) :
    ℕ → ℕ → List (Rec V) → List (Rec V) → ℤ → List ℤ → List (Rec V) × ℤ × List ℤ
  | 0, _, fold_results, _, total_cost, ledger => (fold_results, total_cost, ledger)
  | fuel + 1, t, fold_results, remaining_items, total_cost, ledger =>
    if remaining_items.isEmpty then (fold_results, total_cost, ledger)
    else
      let tasks := scheduleFoldTasks (ctl.lanes t) cfg.fold_batch_size
        fold_results remaining_items
      let fold_futures := tasks.map (fun bc => increment_fold o cfg key bc.1 bc.2)
      let comp := ctl.reorderFold t fold_futures
      let fold_results1 := applyFoldCompletions fold_results (comp.map (·.result))
      let cost1 := total_cost + (comp.map (·.cost)).sum
      let ledger1 := ledger ++ (comp.map (·.ledger)).flatten
      let remaining1 := remaining_items.drop
        (min (ctl.lanes t) remaining_items.length * cfg.fold_batch_size)
      if ctl.earlyMergeOn t && decide (cfg.merge_batch_size ≤ fold_results1.length) then
        let r := mergeRound o cfg key (ctl.reorderMerge t) fold_results1
        engineFoldLoop o cfg ctl key fuel (t + 1) r.1 remaining1
          (cost1 + r.2.1) (ledger1 ++ r.2.2)
      else
        engineFoldLoop o cfg ctl key fuel (t + 1) fold_results1 remaining1 cost1 ledger1

/-- `_parallel_fold_and_merge`: fold/early-merge loop, then final
merge-down, returning `fold_results[0]` if any accumulator survived. -/
def parallel_fold_and_merge (o : Oracle V) (cfg : RConfig V) (ctl : EngineCtl V)
    (key : V) (group_list : List (Rec V)) : StratOut V :=
  let f := engineFoldLoop o cfg ctl key group_list.length 0 [] group_list 0 []
  let m := mergeDownLoop o cfg ctl.reorderFinal key f.1.length 0 f.1 f.2.1 f.2.2
  { result := m.1.head?, cost := m.2.1, ledger := m.2.2 }

/-! ## GroupDispatcher -/

/-- The per-group projection to the declared input schema:
`{k: item[k] for k in input_schema.keys() if k in item}`. -/
def projectGroup (cfg : RConfig V) (group_list : List (Rec V)) : List (Rec V) :=
  match cfg.input_schema with
  | some fields => group_list.map
      (fun item => fields.filterMap (fun k => (getField item k).map (fun v => (k, v))))
  | none => group_list

/-- One step of the pass-through copy: `if k not in output schema and
k not in result: result[k] = v`. -/
def passThroughStep (schema : List String) (res : Rec V) (kv : String × V) : Rec V :=
  if schema.contains kv.1 = false ∧ hasField res kv.1 = false then
    setField res kv.1 kv.2
  else res

/-- The pass-through copy at the end of `process_group`:
`for k, v in group_list[0].items(): ...` over the group's first record. -/
def passThroughFields (schema : List String) (first result : Rec V) : Rec V :=
  first.foldl (passThroughStep schema) result

/-- Strategy selection in `process_group`: merge template ⇒ parallel
fold-merge, fold template alone ⇒ incremental, neither ⇒ batch. -/
def strategy_result (o : Oracle V) (cfg : RConfig V) (ctl : EngineCtl V)
    (key : V) (group_list : List (Rec V)) : StratOut V :=
  if cfg.merge_prompt then parallel_fold_and_merge o cfg ctl key group_list
  else if cfg.fold_prompt then
    let r := incremental_reduce o cfg key group_list
    { result := r.result, cost := r.cost, ledger := r.ledger }
  else batch_reduce o cfg key group_list

def process_group (o : Oracle V) (cfg : RConfig V) (ctl : EngineCtl V)
    (key : V) (group_list : List (Rec V)) : StratOut V :=
  let gl := projectGroup cfg group_list
  let s := strategy_result o cfg ctl key gl
  match s.result with
  | some result =>
    if cfg.pass_through && !gl.isEmpty then
      { s with result := some (passThroughFields cfg.output_schema (gl.headD []) result) }
    else s
  | none => s

/-! ## Cost accounting (claim C8)

Each `StratOut.ledger` lists the model-call costs its computation incurred
(in completion order); the following chain shows every strategy, and then
`execute` itself, reports exactly the sum of its ledger.
-/

theorem sum_cost_eq_flatten (l : List (StratOut V))
    (h : ∀ s ∈ l, s.cost = s.ledger.sum) :
    (l.map (·.cost)).sum = ((l.map (·.ledger)).flatten).sum := by
  rw [sum_flatten_am, List.map_map]
  exact congrArg List.sum (List.map_congr_left h)

theorem mergeRound_cost_ledger (o : Oracle V) (cfg : RConfig V) (key : V)
    (reorder : List (StratOut V) → List (StratOut V))
    (fold_results : List (Rec V))
    (hperm : ∀ xs, List.Perm (reorder xs) xs) :
    (mergeRound o cfg key reorder fold_results).2.1
      = (mergeRound o cfg key reorder fold_results).2.2.sum := by
  simp only [mergeRound]
  apply sum_cost_eq_flatten
  intro s hs
  have hmem : s ∈ (chunks cfg.merge_batch_size fold_results).map
      (merge_results o cfg key) := (hperm _).mem_iff.mp hs
  obtain ⟨c, _, hc⟩ := List.mem_map.mp hmem
  exact hc ▸ merge_results_cost_ledger o cfg key c

theorem engineFoldLoop_cost_ledger (o : Oracle V) (cfg : RConfig V)
    (ctl : EngineCtl V) (key : V)
    (hf : ∀ t xs, List.Perm (ctl.reorderFold t xs) xs)
    (hm : ∀ t xs, List.Perm (ctl.reorderMerge t xs) xs) :
    ∀ (fuel t : ℕ) (fold_results remaining_items : List (Rec V))
      (total_cost : ℤ) (ledger : List ℤ), total_cost = ledger.sum →
      (engineFoldLoop o cfg ctl key fuel t fold_results remaining_items
          total_cost ledger).2.1
        = (engineFoldLoop o cfg ctl key fuel t fold_results remaining_items
            total_cost ledger).2.2.sum := by
  intro fuel
  induction fuel with
  | zero => intro t fr rem c led h; simpa [engineFoldLoop] using h
  | succ fuel ih =>
    intro t fr rem c led h
    simp only [engineFoldLoop]
    by_cases hempty : rem.isEmpty
    · simpa [hempty] using h
    · rw [if_neg hempty]
      have hels : ∀ s ∈ ctl.reorderFold t ((scheduleFoldTasks (ctl.lanes t)
          cfg.fold_batch_size fr rem).map (fun bc => increment_fold o cfg key bc.1 bc.2)),
          s.cost = s.ledger.sum := by
        intro s hs
        have hmem := (hf t _).mem_iff.mp hs
        obtain ⟨bc, _, hbc⟩ := List.mem_map.mp hmem
        exact hbc ▸ increment_fold_cost_ledger o cfg key bc.1 bc.2
      have hcomp := sum_cost_eq_flatten _ hels
      by_cases hguard : ctl.earlyMergeOn t
          && decide (cfg.merge_batch_size ≤ (applyFoldCompletions fr
            ((ctl.reorderFold t ((scheduleFoldTasks (ctl.lanes t) cfg.fold_batch_size
              fr rem).map (fun bc => increment_fold o cfg key bc.1 bc.2))).map
                (·.result))).length)
      · rw [if_pos hguard]
        apply ih
        rw [List.sum_append, List.sum_append, h, hcomp,
          mergeRound_cost_ledger o cfg key _ _ (hm t)]
      · rw [if_neg hguard]
        apply ih
        rw [List.sum_append, h, hcomp]

theorem mergeDownLoop_cost_ledger (o : Oracle V) (cfg : RConfig V)
    (reorder : ℕ → List (StratOut V) → List (StratOut V)) (key : V)
    (hr : ∀ t xs, List.Perm (reorder t xs) xs) :
    ∀ (fuel t : ℕ) (fold_results : List (Rec V)) (total_cost : ℤ) (ledger : List ℤ),
      total_cost = ledger.sum →
      (mergeDownLoop o cfg reorder key fuel t fold_results total_cost ledger).2.1
        = (mergeDownLoop o cfg reorder key fuel t fold_results total_cost
            ledger).2.2.sum := by
  intro fuel
  induction fuel with
  | zero => intro t fr c led h; simpa [mergeDownLoop] using h
  | succ fuel ih =>
    intro t fr c led h
    simp only [mergeDownLoop]
    by_cases hlen : fr.length ≤ 1
    · simpa [hlen] using h
    · rw [if_neg hlen]
      apply ih
      rw [List.sum_append, h, mergeRound_cost_ledger o cfg key _ _ (hr t)]

theorem parallel_fold_and_merge_cost_ledger (o : Oracle V) (cfg : RConfig V)
    (ctl : EngineCtl V) (key : V) (group_list : List (Rec V))
    (hf : ∀ t xs, List.Perm (ctl.reorderFold t xs) xs)
    (hm : ∀ t xs, List.Perm (ctl.reorderMerge t xs) xs)
    (hfin : ∀ t xs, List.Perm (ctl.reorderFinal t xs) xs) :
    (parallel_fold_and_merge o cfg ctl key group_list).cost
      = (parallel_fold_and_merge o cfg ctl key group_list).ledger.sum := by
  simp only [parallel_fold_and_merge]
  exact mergeDownLoop_cost_ledger o cfg ctl.reorderFinal key hfin _ _ _ _ _
    (engineFoldLoop_cost_ledger o cfg ctl key hf hm _ _ _ _ _ _ (by simp))

theorem process_group_cost_ledger (o : Oracle V) (cfg : RConfig V)
    (ctl : EngineCtl V) (key : V) (group_list : List (Rec V))
    (hf : ∀ t xs, List.Perm (ctl.reorderFold t xs) xs)
    (hm : ∀ t xs, List.Perm (ctl.reorderMerge t xs) xs)
    (hfin : ∀ t xs, List.Perm (ctl.reorderFinal t xs) xs) :
    (process_group o cfg ctl key group_list).cost
      = (process_group o cfg ctl key group_list).ledger.sum := by
  have hstrat : ∀ gl, (strategy_result o cfg ctl key gl).cost
      = (strategy_result o cfg ctl key gl).ledger.sum := by
    intro gl
    simp only [strategy_result]
    by_cases h1 : cfg.merge_prompt
    · simpa [h1] using parallel_fold_and_merge_cost_ledger o cfg ctl key gl hf hm hfin
    · by_cases h2 : cfg.fold_prompt
      · simpa [h1, h2] using incrementalGo_cost_ledger o cfg key
          (chunks cfg.fold_batch_size gl) none 0 [] [] (by simp)
      · simpa [h1, h2] using batch_reduce_cost_ledger o cfg key gl
  simp only [process_group]
  cases hres : (strategy_result o cfg ctl key (projectGroup cfg group_list)).result with
  | none => exact hstrat _
  | some result =>
    by_cases hpt : cfg.pass_through && !(projectGroup cfg group_list).isEmpty
    · simpa [hpt] using hstrat _
    · simpa [hpt] using hstrat _

/-! ## Grouper and `execute`

`execute` sorts the input by `itemgetter(reduce_key)` (a stable ascending
sort; CPython computes the key of every element up front, so a missing
`reduce_key` raises `KeyError` before any group is formed — embedded as the
`Except.error` branch guarded by the presence check), groups adjacent equal
keys (`itertools.groupby`), processes each group on the worker pool, and
collects `(output, item_cost)` pairs in completion order (`reorderGroups`),
summing the cost of every group and keeping only non-`None` outputs.

`keyD` reads a record's key field; under the presence precondition it is
exactly `itemgetter(reduce_key)`.  `runsBy` is the run-length grouping of
adjacent equal keys, again fuel-indexed for structural recursion.
-/

def keyD [Inhabited V] (reduce_key : String) (r : Rec V) : V :=
  (getField r reduce_key).getD default

def sorted_data [LinearOrder V] [Inhabited V] (reduce_key : String)
    (input_data : List (Rec V)) : List (Rec V) :=
  List.insertionSort
    (fun a b => keyD reduce_key a ≤ keyD reduce_key b) input_data

def runsByGo (eq : α → α → Bool) : ℕ → List α → List (List α)
  | _, [] => []
  | 0, x :: xs => [x :: xs]
  | fuel + 1, x :: xs =>
    (x :: xs.takeWhile (eq x)) :: runsByGo eq fuel (xs.dropWhile (eq x))

def runsBy (eq : α → α → Bool) (xs : List α) : List (List α) :=
  runsByGo eq xs.length xs

theorem runsByGo_fuel {α : Type u} (eq : α → α → Bool) :
    ∀ (n : ℕ) (xs : List α) (fuel1 fuel2 : ℕ), xs.length ≤ n →
      xs.length ≤ fuel1 → xs.length ≤ fuel2 →
      runsByGo eq fuel1 xs = runsByGo eq fuel2 xs := by
  intro n
  induction n with
  | zero =>
    intro xs fuel1 fuel2 hn _ _
    have : xs = [] := List.length_eq_zero.mp (Nat.le_zero.mp hn)
    subst this
    cases fuel1 <;> cases fuel2 <;> rfl
  | succ n ih =>
    intro xs fuel1 fuel2 hn h1 h2
    match xs with
    | [] => cases fuel1 <;> cases fuel2 <;> rfl
    | x :: xs =>
      match fuel1, fuel2 with
      | f1 + 1, f2 + 1 =>
        simp only [runsByGo]
        congr 1
        have hdrop : (xs.dropWhile (eq x)).length ≤ xs.length :=
          (List.dropWhile_sublist (eq x)).length_le
        simp only [List.length_cons] at hn h1 h2
        exact ih _ _ _ (by omega) (by omega) (by omega)

theorem runsBy_nil (eq : α → α → Bool) : runsBy eq ([] : List α) = [] := rfl

theorem runsBy_cons {α : Type u} (eq : α → α → Bool) (x : α) (xs : List α) :
    runsBy eq (x :: xs)
      = (x :: xs.takeWhile (eq x)) :: runsBy eq (xs.dropWhile (eq x)) := by
  simp only [runsBy, List.length_cons, runsByGo]
  congr 1
  exact runsByGo_fuel eq (xs.dropWhile (eq x)).length (xs.dropWhile (eq x)) xs.length
    (xs.dropWhile (eq x)).length le_rfl
    ((List.dropWhile_sublist (eq x)).length_le) le_rfl

/-- `itertools.groupby` over the sorted data, as the `(key, list(group))`
pairs that `execute` builds. -/
def grouped_data [LinearOrder V] [Inhabited V] (reduce_key : String)
    (input_data : List (Rec V)) : List (V × List (Rec V)) :=
  (runsBy (fun a b => keyD reduce_key a == keyD reduce_key b)
      (sorted_data reduce_key input_data)).map
    (fun g => (keyD reduce_key (g.headD []), g))

/-- `execute`.  The `Except.error` branch embeds the `KeyError` raised by
the initial sort when some record lacks the reduce key (CPython's sort
computes every record's key before any comparison, grouping or model
call). -/
def execute [LinearOrder V] [Inhabited V] (o : Oracle V) (cfg : RConfig V)
    (ctl : ℕ → EngineCtl V)
    (reorderGroups : List (StratOut V) → List (StratOut V))
    (input_data : List (Rec V)) :
    Except Unit (List (Rec V) × ℤ × List ℤ) :=
  if input_data.all (fun r => (getField r cfg.reduce_key).isSome) then
    let gd := grouped_data cfg.reduce_key input_data
    let futures := gd.enum.map (fun ig => process_group o cfg (ctl ig.1) ig.2.1 ig.2.2)
    let comp := reorderGroups futures
    Except.ok (comp.filterMap (·.result), (comp.map (·.cost)).sum,
      (comp.map (·.ledger)).flatten)
  else Except.error ()

/-- Claim C8: whenever `execute` completes, the total cost it returns is
exactly the sum of the ledger of every individual model-call cost incurred
across all groups and strategies (batch-reduce, fold, merge, gleaning),
including the costs of calls whose produced record failed validation and
was dropped from the output.  The completion orders are arbitrary
permutations of submission order. -/
theorem C8_total_cost [LinearOrder V] [Inhabited V] (o : Oracle V)
    (cfg : RConfig V) (ctl : ℕ → EngineCtl V)
    (reorderGroups : List (StratOut V) → List (StratOut V))
    (input_data res : List (Rec V)) (total_cost : ℤ) (ledger : List ℤ)
    (hg : ∀ xs, List.Perm (reorderGroups xs) xs)
    (hf : ∀ g t xs, List.Perm ((ctl g).reorderFold t xs) xs)
    (hm : ∀ g t xs, List.Perm ((ctl g).reorderMerge t xs) xs)
    (hfin : ∀ g t xs, List.Perm ((ctl g).reorderFinal t xs) xs)
    (hex : execute o cfg ctl reorderGroups input_data
      = Except.ok (res, total_cost, ledger)) :
    total_cost = ledger.sum := by
  by_cases hall : input_data.all (fun r => (getField r cfg.reduce_key).isSome)
  · simp only [execute, hall, if_true, Except.ok.injEq, Prod.mk.injEq] at hex
    obtain ⟨-, hcost, hledger⟩ := hex
    subst hcost
    subst hledger
    apply sum_cost_eq_flatten
    intro s hs
    have hmem := (hg _).mem_iff.mp hs
    obtain ⟨ig, _, hig⟩ := List.mem_map.mp hmem
    exact hig ▸ process_group_cost_ledger o cfg (ctl ig.1) ig.2.1 ig.2.2
      (hf ig.1) (hm ig.1) (hfin ig.1)
  · simp only [execute, hall, if_false] at hex
    cases hex

def ctl0 : ℕ → EngineCtl ℕ := fun _ =>
  { lanes := fun _ => 2, earlyMergeOn := fun _ => false,
    reorderFold := fun _ l => l, reorderMerge := fun _ l => l,
    reorderFinal := fun _ l => l }

/-! ## Grouper correctness (claims C6 and C10) -/

theorem runsBy_flatten {α : Type u} (eq : α → α → Bool) :
    ∀ (n : ℕ) (xs : List α), xs.length ≤ n → (runsBy eq xs).flatten = xs := by
  intro n
  induction n with
  | zero =>
    intro xs hn
    have : xs = [] := List.length_eq_zero.mp (Nat.le_zero.mp hn)
    subst this
    rfl
  | succ n ih =>
    intro xs hn
    match xs with
    | [] => rfl
    | x :: xs =>
      rw [runsBy_cons]
      simp only [List.flatten_cons]
      rw [ih (xs.dropWhile (eq x))
        (by have := (List.dropWhile_sublist (eq x) (l := xs)).length_le
            simp only [List.length_cons] at hn; omega)]
      simp only [List.cons_append, List.takeWhile_append_dropWhile]

theorem runsBy_run_shape {α : Type u} (eq : α → α → Bool) :
    ∀ (n : ℕ) (xs : List α), xs.length ≤ n → ∀ g ∈ runsBy eq xs,
      ∃ h t, g = h :: t ∧ ∀ y ∈ t, eq h y = true := by
  intro n
  induction n with
  | zero =>
    intro xs hn
    have : xs = [] := List.length_eq_zero.mp (Nat.le_zero.mp hn)
    subst this
    intro g hg
    simp [runsBy_nil] at hg
  | succ n ih =>
    intro xs hn g hg
    match xs with
    | [] => simp [runsBy_nil] at hg
    | x :: xs =>
      rw [runsBy_cons] at hg
      rcases List.mem_cons.mp hg with hg | hg
      · exact ⟨x, xs.takeWhile (eq x), hg,
          fun y hy => List.mem_takeWhile_imp hy⟩
      · exact ih (xs.dropWhile (eq x))
          (by have := (List.dropWhile_sublist (eq x) (l := xs)).length_le
              simp only [List.length_cons] at hn; omega) g hg

theorem runsBy_mem_of_mem {α : Type u} (eq : α → α → Bool) (xs : List α)
    (g : List α) (r : α) (hg : g ∈ runsBy eq xs) (hr : r ∈ g) : r ∈ xs := by
  rw [← runsBy_flatten eq xs.length xs le_rfl]
  exact List.mem_flatten.mpr ⟨g, hg, hr⟩

theorem dropWhile_head_false {α : Type u} (p : α → Bool) :
    ∀ (l : List α) (z : α) (rest : List α), l.dropWhile p = z :: rest →
      p z = false := by
  intro l
  induction l with
  | nil => intro z rest h; simp at h
  | cons a t ih =>
    intro z rest h
    rw [List.dropWhile_cons] at h
    by_cases hp : p a
    · simp [hp] at h
      exact ih z rest h
    · simp [hp] at h
      rw [← h.1]
      simpa using hp

theorem dropWhile_key_gt {α : Type u} {W : Type} [LinearOrder W] [DecidableEq W]
    (key : α → W) (x : α) (xs : List α)
    (hs : (x :: xs).Pairwise (fun a b => key a ≤ key b)) :
    ∀ y ∈ xs.dropWhile (fun b => key x == key b), key x < key y := by
  rcases List.pairwise_cons.mp hs with ⟨hx, hxs⟩
  cases hdw : xs.dropWhile (fun b => key x == key b) with
  | nil => intro y hy; simp at hy
  | cons z rest =>
    have hz_false : (key x == key z) = false :=
      dropWhile_head_false _ xs z rest hdw
    have hz_ne : key x ≠ key z := by simpa using hz_false
    have hz_mem : z ∈ xs := by
      have hsub : List.Sublist (z :: rest) xs := hdw ▸ List.dropWhile_sublist _
      exact hsub.mem (List.mem_cons_self z rest)
    have hz_lt : key x < key z := lt_of_le_of_ne (hx z hz_mem) hz_ne
    have hrest : (z :: rest).Pairwise (fun a b => key a ≤ key b) :=
      hxs.sublist (hdw ▸ List.dropWhile_sublist _)
    intro y hy
    rcases List.mem_cons.mp hy with hy | hy
    · exact hy ▸ hz_lt
    · exact lt_of_lt_of_le hz_lt ((List.pairwise_cons.mp hrest).1 y hy)

theorem runsBy_heads_lt {α : Type u} {W : Type} [LinearOrder W] [DecidableEq W]
    (key : α → W) (d : α) :
    ∀ (n : ℕ) (xs : List α), xs.length ≤ n →
      xs.Pairwise (fun a b => key a ≤ key b) →
      ((runsBy (fun a b => key a == key b) xs).map
        (fun g => key (g.headD d))).Pairwise (· < ·) := by
  intro n
  induction n with
  | zero =>
    intro xs hn _
    have : xs = [] := List.length_eq_zero.mp (Nat.le_zero.mp hn)
    subst this
    simp [runsBy_nil]
  | succ n ih =>
    intro xs hn hs
    match xs with
    | [] => simp [runsBy_nil]
    | x :: xs =>
      rw [runsBy_cons, List.map_cons]
      have hlen : (xs.dropWhile (fun b => key x == key b)).length ≤ n := by
        have := (List.dropWhile_sublist (fun b => key x == key b) (l := xs)).length_le
        simp only [List.length_cons] at hn; omega
      have hpair : (xs.dropWhile (fun b => key x == key b)).Pairwise
          (fun a b => key a ≤ key b) :=
        ((List.pairwise_cons.mp hs).2).sublist (List.dropWhile_sublist _)
      apply List.Pairwise.cons
      · intro b hb
        obtain ⟨g, hg, hgb⟩ := List.mem_map.mp hb
        obtain ⟨h, t, hht, -⟩ := runsBy_run_shape _ _ _ le_rfl g hg
        have hmem : g.headD d ∈ xs.dropWhile (fun b => key x == key b) := by
          apply runsBy_mem_of_mem _ _ g _ hg
          rw [hht]
          exact List.mem_cons_self h t
        have := dropWhile_key_gt key x xs hs (g.headD d) hmem
        subst hgb
        simpa using this
      · exact ih _ hlen hpair

theorem pairwise_lt_fst_inj {W : Type} {γ : Type u} [Preorder W] :
    ∀ (l : List (W × γ)), (l.map Prod.fst).Pairwise (· < ·) →
      ∀ p ∈ l, ∀ q ∈ l, p.1 = q.1 → p = q := by
  intro l
  induction l with
  | nil => intro _ p hp; simp at hp
  | cons a t ih =>
    intro hpair p hp q hq heq
    rw [List.map_cons, List.pairwise_cons] at hpair
    rcases List.mem_cons.mp hp with hp1 | hp1
    · rcases List.mem_cons.mp hq with hq1 | hq1
      · rw [hp1, hq1]
      · have heq2 : a.1 = q.1 := by rw [← hp1]; exact heq
        have hlt := hpair.1 q.1 (List.mem_map_of_mem Prod.fst hq1)
        rw [← heq2] at hlt
        exact absurd hlt (lt_irrefl _)
    · rcases List.mem_cons.mp hq with hq1 | hq1
      · have heq2 : p.1 = a.1 := by rw [← hq1]; exact heq
        have hlt := hpair.1 p.1 (List.mem_map_of_mem Prod.fst hp1)
        rw [heq2] at hlt
        exact absurd hlt (lt_irrefl _)
      · exact ih hpair.2 p hp1 q hq1 heq

/-- Every record's key is read by `itemgetter` as `keyD` under the
presence precondition. -/
theorem getField_eq_keyD [Inhabited V] (reduce_key : String) (r : Rec V)
    (h : (getField r reduce_key).isSome = true) :
    getField r reduce_key = some (keyD reduce_key r) := by
  obtain ⟨v, hv⟩ := Option.isSome_iff_exists.mp h
  rw [hv]
  simp [keyD, hv]

theorem sorted_data_pairwise [LinearOrder V] [Inhabited V] (reduce_key : String)
    (input_data : List (Rec V)) :
    (sorted_data reduce_key input_data).Pairwise
      (fun a b => keyD reduce_key a ≤ keyD reduce_key b) := by
  haveI : IsTotal (Rec V) (fun a b => keyD reduce_key a ≤ keyD reduce_key b) :=
    ⟨fun a b => le_total _ _⟩
  haveI : IsTrans (Rec V) (fun a b => keyD reduce_key a ≤ keyD reduce_key b) :=
    ⟨fun a b c hab hbc => le_trans hab hbc⟩
  exact List.sorted_insertionSort _ input_data

/-- Claim C6: `execute`'s grouping partitions the input records into
key-homogeneous groups: the group contents are a permutation of the input
(each record in exactly one group), every record of a group carries the
group's key, group keys are strictly ascending, and two records with equal
keys land in the same group. -/
theorem C6_grouping [LinearOrder V] [Inhabited V] (reduce_key : String)
    (input_data : List (Rec V)) (p q : V × List (Rec V)) (r r1 r2 : Rec V)
    (hall : ∀ s ∈ input_data, (getField s reduce_key).isSome = true) :
    List.Perm ((grouped_data reduce_key input_data).map Prod.snd).flatten input_data
    ∧ (p ∈ grouped_data reduce_key input_data → r ∈ p.2 →
        getField r reduce_key = some p.1)
    ∧ ((grouped_data reduce_key input_data).map Prod.fst).Pairwise (· < ·)
    ∧ (p ∈ grouped_data reduce_key input_data →
        q ∈ grouped_data reduce_key input_data → r1 ∈ p.2 → r2 ∈ q.2 →
        getField r1 reduce_key = getField r2 reduce_key → p = q) := by
  have hmap_snd : (grouped_data reduce_key input_data).map Prod.snd
      = runsBy (fun a b => keyD reduce_key a == keyD reduce_key b)
          (sorted_data reduce_key input_data) := by
    simp only [grouped_data, List.map_map]
    exact List.map_id' _
  have hflatten : ((grouped_data reduce_key input_data).map Prod.snd).flatten
      = sorted_data reduce_key input_data := by
    rw [hmap_snd, runsBy_flatten _ _ _ le_rfl]
  have hsorted_perm : List.Perm (sorted_data reduce_key input_data) input_data :=
    List.perm_insertionSort _ input_data
  have hkey : ∀ pp ∈ grouped_data reduce_key input_data, ∀ rr ∈ pp.2,
      getField rr reduce_key = some pp.1 := by
    intro pp hpp rr hrr
    obtain ⟨g, hg, hpg⟩ := List.mem_map.mp hpp
    obtain ⟨h, t, hht, hteq⟩ := runsBy_run_shape _ _ _ le_rfl g hg
    have hsnd : pp.2 = g := by rw [← hpg]
    have hfst : pp.1 = keyD reduce_key (g.headD []) := by rw [← hpg]
    have hrr2 : rr ∈ g := hsnd ▸ hrr
    have hmem_sorted : rr ∈ sorted_data reduce_key input_data :=
      runsBy_mem_of_mem _ _ g rr hg hrr2
    have hmem_input : rr ∈ input_data := hsorted_perm.mem_iff.mp hmem_sorted
    have hkeyd : keyD reduce_key rr = keyD reduce_key h := by
      rw [hht] at hrr2
      rcases List.mem_cons.mp hrr2 with hc | hc
      · rw [hc]
      · have hy := hteq rr hc
        simp only [beq_iff_eq] at hy
        exact hy.symm
    have hhead : keyD reduce_key (g.headD []) = keyD reduce_key h := by
      rw [hht]
      rfl
    rw [getField_eq_keyD reduce_key rr (hall rr hmem_input), hkeyd, hfst, hhead]
  have hfirst : ((grouped_data reduce_key input_data).map Prod.fst).Pairwise
      (· < ·) := by
    have hmap_fst : (grouped_data reduce_key input_data).map Prod.fst
        = (runsBy (fun a b => keyD reduce_key a == keyD reduce_key b)
            (sorted_data reduce_key input_data)).map
              (fun g => keyD reduce_key (g.headD [])) := by
      simp only [grouped_data, List.map_map]
      rfl
    rw [hmap_fst]
    exact runsBy_heads_lt (keyD reduce_key) [] _ _ le_rfl
      (sorted_data_pairwise reduce_key input_data)
  refine ⟨hflatten ▸ hsorted_perm, fun hp hr => hkey p hp r hr, hfirst, ?_⟩
  intro hp hq hr1 hr2 heq
  have h1 := hkey p hp r1 hr1
  have h2 := hkey q hq r2 hr2
  apply pairwise_lt_fst_inj _ hfirst p hp q hq
  rw [h1, h2] at heq
  exact Option.some.inj heq

theorem C6_grouping_witness :
    List.Perm ((grouped_data "g"
        ([[("g", 2), ("x", 1)], [("g", 1)], [("g", 2), ("y", 9)]] : List (Rec ℕ))).map
          Prod.snd).flatten
      [[("g", 2), ("x", 1)], [("g", 1)], [("g", 2), ("y", 9)]]
    ∧ getField ([("g", 2), ("y", 9)] : Rec ℕ) "g" = some 2
    ∧ ((grouped_data "g"
        ([[("g", 2), ("x", 1)], [("g", 1)], [("g", 2), ("y", 9)]] : List (Rec ℕ))).map
          Prod.fst).Pairwise (· < ·) := by
  have h := C6_grouping "g"
    ([[("g", 2), ("x", 1)], [("g", 1)], [("g", 2), ("y", 9)]] : List (Rec ℕ))
    (2, [[("g", 2), ("x", 1)], [("g", 2), ("y", 9)]])
    (2, [[("g", 2), ("x", 1)], [("g", 2), ("y", 9)]])
    [("g", 2), ("y", 9)] [("g", 2), ("y", 9)] [("g", 2), ("y", 9)]
    (by decide)
  exact ⟨h.1, h.2.1 (by decide) (by decide), h.2.2.1⟩

/-- Claim C10: `execute` requires every input record to carry the
`reduce_key` field.  If some record lacks it, the initial key-based sort
raises `KeyError` (the `Except.error` outcome) before any group is formed
or model call is made; when every record carries the field, `execute`
completes normally. -/
theorem C10_missing_key [LinearOrder V] [Inhabited V] (o : Oracle V)
    (cfg : RConfig V) (ctl : ℕ → EngineCtl V)
    (reorderGroups : List (StratOut V) → List (StratOut V))
    (input_data : List (Rec V)) (r : Rec V) :
    (r ∈ input_data → getField r cfg.reduce_key = none →
      execute o cfg ctl reorderGroups input_data = Except.error ())
    ∧ ((∀ s ∈ input_data, (getField s cfg.reduce_key).isSome = true) →
        (execute o cfg ctl reorderGroups input_data).isOk = true) := by
  constructor
  · intro hr hnone
    have hfalse : ¬ (input_data.all (fun s => (getField s cfg.reduce_key).isSome)
        = true) := by
      intro hc
      have := List.all_eq_true.mp hc r hr
      rw [hnone] at this
      exact absurd this (by simp)
    simp only [execute, if_neg hfalse]
  · intro hall
    have htrue : input_data.all (fun s => (getField s cfg.reduce_key).isSome)
        = true := List.all_eq_true.mpr hall
    simp only [execute, if_pos htrue, Except.isOk, Except.toBool]

theorem C10_missing_key_witness :
    execute oracleW cfgW ctl0 (fun l => l) [[("x", 5)]] = Except.error ()
    ∧ (execute oracleW cfgW ctl0 (fun l => l) [[("g", 1)]]).isOk = true := by
  refine ⟨?_, ?_⟩
  · exact (C10_missing_key oracleW cfgW ctl0 (fun l => l) [[("x", 5)]]
      [("x", 5)]).1 (by decide) (by decide)
  · exact (C10_missing_key oracleW cfgW ctl0 (fun l => l) [[("g", 1)]]
      [("g", 1)]).2 (by decide)

theorem C8_total_cost_witness :
    execute oracleW cfgW ctl0 (fun l => l) [[("g", 1)]]
      = Except.ok ([[("v", 0), ("g", 1)]], 1, [1])
    ∧ (1 : ℤ) = List.sum [(1 : ℤ)] := by
  refine ⟨by rfl, ?_⟩
  exact C8_total_cost oracleW cfgW ctl0 (fun l => l) [[("g", 1)]]
    [[("v", 0), ("g", 1)]] 1 [1]
    (fun xs => List.Perm.refl xs) (fun g t xs => List.Perm.refl xs)
    (fun g t xs => List.Perm.refl xs) (fun g t xs => List.Perm.refl xs)
    (by rfl)

/-! ## Pass-through (claim C9)

Association-list facts about `getField` / `hasField` / `setField`, then the
frame conditions of the pass-through copy.
-/

theorem getField_none_of_not_has (r : Rec V) (f : String)
    (h : hasField r f = false) : getField r f = none := by
  cases hfind : r.find? (fun kv => kv.1 == f) with
  | none => simp [getField, hfind]
  | some p =>
    rw [hasField, hfind] at h
    simp at h

theorem getField_append_left (r1 r2 : Rec V) (f : String)
    (h : hasField r1 f = true) : getField (r1 ++ r2) f = getField r1 f := by
  simp only [getField, List.find?_append]
  obtain ⟨p, hp⟩ := Option.isSome_iff_exists.mp (by rw [hasField] at h; exact h)
  rw [hp]
  rfl

theorem getField_append_right (r1 r2 : Rec V) (f : String)
    (h : hasField r1 f = false) : getField (r1 ++ r2) f = getField r2 f := by
  simp only [getField, List.find?_append]
  have hnone : r1.find? (fun kv => kv.1 == f) = none := by
    rw [hasField] at h
    exact Option.not_isSome_iff_eq_none.mp (by simp [h])
  rw [hnone]
  rfl

theorem hasField_append (r1 r2 : Rec V) (f : String) :
    hasField (r1 ++ r2) f = (hasField r1 f || hasField r2 f) := by
  simp only [hasField, List.find?_append]
  cases r1.find? (fun kv => kv.1 == f) <;> simp

theorem getField_singleton_self (k : String) (v : V) :
    getField [(k, v)] k = some v := by
  simp [getField, List.find?]

theorem getField_singleton_ne (k1 k : String) (v : V) (h : k1 ≠ k) :
    getField [(k1, v)] k = none := by
  have hbeq : (k1 == k) = false := by simpa using h
  simp [getField, List.find?, hbeq]

theorem hasField_singleton (k1 k : String) (v : V) :
    hasField [(k1, v)] k = (k1 == k) := by
  by_cases h : k1 == k <;> simp [hasField, List.find?, h]

theorem setField_not_has (r : Rec V) (k : String) (v : V)
    (h : hasField r k = false) : setField r k v = r ++ [(k, v)] := by
  rw [setField, if_neg (by simp [h])]

theorem passThrough_keeps (schema : List String) :
    ∀ (l : List (String × V)) (res : Rec V) (f : String),
      (hasField res f = true ∨ schema.contains f = true) →
      getField (List.foldl (passThroughStep schema) res l) f = getField res f
      ∧ (hasField res f = true →
          hasField (List.foldl (passThroughStep schema) res l) f = true) := by
  intro l
  induction l with
  | nil => exact fun res f _ => ⟨rfl, fun h2 => h2⟩
  | cons kv t ih =>
    intro res f h
    simp only [List.foldl_cons]
    by_cases hc : schema.contains kv.1 = false ∧ hasField res kv.1 = false
    · have hstep : passThroughStep schema res kv = res ++ [(kv.1, kv.2)] := by
        rw [passThroughStep, if_pos hc, setField_not_has _ _ _ hc.2]
      have hne : kv.1 ≠ f := by
        intro hcontra
        rcases h with h | h
        · rw [hcontra, h] at hc
          exact absurd hc.2 (by simp)
        · rw [hcontra, h] at hc
          exact absurd hc.1 (by simp)
      have hget : getField (res ++ [(kv.1, kv.2)]) f = getField res f := by
        by_cases hhf : hasField res f = true
        · exact getField_append_left res _ f hhf
        · rw [getField_append_right res _ f (by simpa using hhf),
            getField_singleton_ne _ _ _ hne,
            getField_none_of_not_has res f (by simpa using hhf)]
      have hhas : hasField res f = true → hasField (res ++ [(kv.1, kv.2)]) f = true := by
        intro h2
        rw [hasField_append, h2]
        rfl
      have hnext : hasField (res ++ [(kv.1, kv.2)]) f = true
          ∨ schema.contains f = true := by
        rcases h with h | h
        · exact Or.inl (hhas h)
        · exact Or.inr h
      rw [hstep]
      refine ⟨?_, ?_⟩
      · rw [(ih _ f hnext).1, hget]
      · intro h2
        exact (ih _ f hnext).2 (hhas h2)
    · have hstep : passThroughStep schema res kv = res := by
        rw [passThroughStep, if_neg hc]
      rw [hstep]
      exact ih res f h

theorem passThrough_adds (schema : List String) :
    ∀ (l : List (String × V)) (res : Rec V), (l.map Prod.fst).Nodup →
      ∀ kv ∈ l, schema.contains kv.1 = false → hasField res kv.1 = false →
        getField (List.foldl (passThroughStep schema) res l) kv.1 = some kv.2 := by
  intro l
  induction l with
  | nil => intro res _ kv hkv; simp at hkv
  | cons p t ih =>
    intro res hnd kv hkv hcs hcr
    simp only [List.foldl_cons]
    rcases List.mem_cons.mp hkv with hkv1 | hkv1
    · subst hkv1
      have hstep : passThroughStep schema res kv = res ++ [(kv.1, kv.2)] := by
        rw [passThroughStep, if_pos ⟨hcs, hcr⟩, setField_not_has _ _ _ hcr]
      have hhas : hasField (res ++ [(kv.1, kv.2)]) kv.1 = true := by
        rw [hasField_append, hasField_singleton]
        simp
      rw [hstep, (passThrough_keeps schema t _ kv.1 (Or.inl hhas)).1,
        getField_append_right res _ kv.1 hcr, getField_singleton_self]
    · have hne : p.1 ≠ kv.1 := by
        intro hcontra
        exact (List.nodup_cons.mp hnd).1
          (hcontra ▸ List.mem_map_of_mem Prod.fst hkv1)
      have hres2 : hasField (passThroughStep schema res p) kv.1 = false := by
        rw [passThroughStep]
        by_cases hcp : schema.contains p.1 = false ∧ hasField res p.1 = false
        · rw [if_pos hcp, setField_not_has _ _ _ hcp.2, hasField_append,
            hasField_singleton, hcr]
          simp [hne]
        · rw [if_neg hcp]
          exact hcr
      exact ih (passThroughStep schema res p) (List.nodup_cons.mp hnd).2
        kv hkv1 hcs hres2

/-- Claim C9: with pass-through enabled and a produced record, the group's
final result is the strategy's record extended by every field of the
group's first (projected) input record that is neither declared in the
output schema nor already present; fields already present in the result and
fields declared in the output schema are left untouched by the copy. -/
theorem C9_pass_through (o : Oracle V) (cfg : RConfig V) (ctl : EngineCtl V)
    (key : V) (group_list : List (Rec V)) (r0 : Rec V) (kv : String × V)
    (f f2 : String)
    (hpt : cfg.pass_through = true)
    (hne : (projectGroup cfg group_list).isEmpty = false)
    (hres : (strategy_result o cfg ctl key (projectGroup cfg group_list)).result
      = some r0)
    (hnd : (((projectGroup cfg group_list).headD []).map Prod.fst).Nodup) :
    ((process_group o cfg ctl key group_list).result
      = some (passThroughFields cfg.output_schema
          ((projectGroup cfg group_list).headD []) r0))
    ∧ (kv ∈ (projectGroup cfg group_list).headD [] →
        cfg.output_schema.contains kv.1 = false → hasField r0 kv.1 = false →
        getField (passThroughFields cfg.output_schema
          ((projectGroup cfg group_list).headD []) r0) kv.1 = some kv.2)
    ∧ (hasField r0 f = true →
        getField (passThroughFields cfg.output_schema
          ((projectGroup cfg group_list).headD []) r0) f = getField r0 f)
    ∧ (cfg.output_schema.contains f2 = true →
        getField (passThroughFields cfg.output_schema
          ((projectGroup cfg group_list).headD []) r0) f2 = getField r0 f2) := by
  refine ⟨?_, ?_, ?_, ?_⟩
  · simp only [process_group, hres, hpt, hne, Bool.not_false, Bool.true_and]
    rfl
  · intro hkv hcs hcr
    exact passThrough_adds cfg.output_schema _ r0 hnd kv hkv hcs hcr
  · intro hf
    exact (passThrough_keeps cfg.output_schema _ r0 f (Or.inl hf)).1
  · intro hf2
    exact (passThrough_keeps cfg.output_schema _ r0 f2 (Or.inr hf2)).1

def cfgP : RConfig ℕ :=
  { cfgW with merge_prompt := false, fold_prompt := false, pass_through := true }

theorem C9_pass_through_witness :
    ((process_group oracleW cfgP (ctl0 0) 1 [[("g", 1), ("x", 5)]]).result
      = some (passThroughFields ["v"] [("g", 1), ("x", 5)] [("v", 0), ("g", 1)]))
    ∧ getField (passThroughFields ["v"] [("g", 1), ("x", 5)] [("v", 0), ("g", 1)])
        "x" = some 5
    ∧ getField (passThroughFields ["v"] [("g", 1), ("x", 5)] [("v", 0), ("g", 1)])
        "g" = getField ([("v", 0), ("g", 1)] : Rec ℕ) "g"
    ∧ getField (passThroughFields ["v"] [("g", 1), ("x", 5)] [("v", 0), ("g", 1)])
        "v" = getField ([("v", 0), ("g", 1)] : Rec ℕ) "v" := by
  have h := C9_pass_through oracleW cfgP (ctl0 0) 1 [[("g", 1), ("x", 5)]]
    [("v", 0), ("g", 1)] ("x", 5) "g" "v" (by decide) (by decide) (by rfl) (by decide)
  exact ⟨h.1, h.2.1 (by decide) (by decide) (by decide), h.2.2.1 (by decide),
    h.2.2.2 (by decide)⟩

end Motion
